import Mathlib

/-!
# Verification development for the `magus` fantasy-name generator

Shallow embedding of the core of the repository:

* `app/services/cache_service.py` — the in-process LRU+TTL cache backend
  (`InMemoryCache`), the cache-key derivation (`CacheService.generate_cache_key`),
  pattern-based clearing (`CacheService.clear_pattern`) and the name-generator
  specific helpers (`cache_generated_names`, `get_cached_names`,
  `invalidate_culture_cache`);
* `app/core/phonetics.py` — `PhoneticsScorer.score`;
* `app/core/syllables.py` — `SyllableGenerator.generate`;
* `app/core/generator.py` — `NameGenerator.generate` and
  `NameGenerator._generate_syllables`;
* `app/services/name_service.py` — `NameService.generate_names`.

Python `dict` / `collections.OrderedDict` values are embedded as association
lists (`List (κ × α)`); an `OrderedDict` keeps its entries in recency order
with the front of the list being the oldest (`next(iter(d))`) and
`move_to_end` moving an entry to the back.  Wall-clock instants
(`time.time()`) are passed explicitly as a rational `now` argument.  Python
exceptions are embedded with `Except PyError`.  Randomness
(`random.choice`) is embedded by passing an explicit stream of draws
(`List ℕ`); a draw `r` selects index `r % len` of the sequence, which is the
uniform-index semantics of CPython's `random.choice`.
-/

namespace Magus

/-- Python exception kinds that the embedded code can raise. -/
inductive PyError where
  | typeError
  | nameError
  | keyError
  | indexError
  | zeroDivisionError
  deriving DecidableEq, Repr

/-! ## Association-list primitives for Python `dict` / `OrderedDict` -/

/-- Lookup `d[k]` (first entry with the given key). -/
def lookupKey [DecidableEq κ] : List (κ × α) → κ → Option α
  | [], _ => none
  | (k', v) :: rest, k => if k' = k then some v else lookupKey rest k

/-- Membership test `k in d`. -/
def hasKey [DecidableEq κ] (l : List (κ × α)) (k : κ) : Bool :=
  (lookupKey l k).isSome

/-- Deletion `del d[k]`: remove the (first) entry with the given key. -/
def eraseKey [DecidableEq κ] : List (κ × α) → κ → List (κ × α)
  | [], _ => []
  | (k', v) :: rest, k => if k' = k then rest else (k', v) :: eraseKey rest k

/-- Assignment `d[k] = v`: replace the value of an existing key in place, or append a
new entry at the end. -/
def setKey [DecidableEq κ] : List (κ × α) → κ → α → List (κ × α)
  | [], k, v => [(k, v)]
  | (k', v') :: rest, k, v =>
    if k' = k then (k, v) :: rest else (k', v') :: setKey rest k v

/-- The key list of an association list. -/
def keysOf (l : List (κ × α)) : List κ := l.map Prod.fst

/-! ## `InMemoryCache` (app/services/cache_service.py, lines 44–147)

State of the in-process backend: `cache` is the `OrderedDict` (front =
least recently used), `expiry` the `dict` of absolute expiry instants,
plus the capacity bound and hit/miss counters.  The `threading.Lock` only
serializes access and has no effect on the sequential semantics. -/

structure InMemoryCache (α : Type) where
  cache : List (String × α)
  expiry : List (String × ℚ)
  max_size : ℕ
  hits : ℕ
  misses : ℕ
  deriving Repr

/-- Embeds `InMemoryCache.__init__`: empty store with the given capacity. -/
def InMemoryCache.mkEmpty (max_size : ℕ) : InMemoryCache α :=
  { cache := [], expiry := [], max_size := max_size, hits := 0, misses := 0 }

/-- Embeds `InMemoryCache.get` (lines 60–79): on a present key whose expiry
instant (default `float('inf')`, i.e. no recorded expiry) is still in the
future, move the entry to the most-recently-used end, count a hit and
return the value; an expired key is deleted from both maps; any
non-returning path counts a miss and returns `None`. -/
def InMemoryCache.get (s : InMemoryCache α) (now : ℚ) (key : String) :
    Option α × InMemoryCache α :=
  match lookupKey s.cache key with
  | some v =>
    if (match lookupKey s.expiry key with
        | some t => decide (now < t)
        | none => true) then
      (some v,
        { s with cache := eraseKey s.cache key ++ [(key, v)], hits := s.hits + 1 })
    else
      (none,
        { s with cache := eraseKey s.cache key, expiry := eraseKey s.expiry key,
                 misses := s.misses + 1 })
  | none => (none, { s with misses := s.misses + 1 })

/-- The unconditional part of `InMemoryCache.set` (lines 93–99): store the
value, mark it most recently used, and record the expiry instant
`time.time() + ttl` when `ttl > 0` (a non-positive `ttl` leaves any stale
expiry entry untouched). -/
def InMemoryCache.insertEntry (s : InMemoryCache α) (now : ℚ) (key : String)
    (value : α) (ttl : ℤ) : InMemoryCache α :=
  { s with
    cache := eraseKey s.cache key ++ [(key, value)],
    expiry := if 0 < ttl then setKey s.expiry key (now + ttl) else s.expiry }

/-- Embeds `InMemoryCache.set` (lines 81–106): when at capacity and the key is
new, evict the oldest entry (`next(iter(self.cache))`) from both maps
first; on an empty store that `next` raises `StopIteration`, which the
surrounding `except` swallows, returning `False` with the state
unmodified.  Then insert as in `insertEntry` and return `True`. -/
def InMemoryCache.set (s : InMemoryCache α) (now : ℚ) (key : String)
    (value : α) (ttl : ℤ) : Bool × InMemoryCache α :=
  if s.max_size ≤ s.cache.length ∧ hasKey s.cache key = false then
    match s.cache with
    | [] => (false, s)
    | (oldest_key, _) :: _ =>
      (true,
        InMemoryCache.insertEntry
          { s with cache := eraseKey s.cache oldest_key,
                   expiry := eraseKey s.expiry oldest_key }
          now key value ttl)
  else
    (true, s.insertEntry now key value ttl)

/-- Embeds `InMemoryCache.delete` (lines 108–117): remove a present key from both
maps and report whether it was present. -/
def InMemoryCache.delete (s : InMemoryCache α) (key : String) :
    Bool × InMemoryCache α :=
  if hasKey s.cache key then
    (true, { s with cache := eraseKey s.cache key, expiry := eraseKey s.expiry key })
  else
    (false, s)

/-- Embeds `InMemoryCache.clear_all` (lines 119–127). -/
def InMemoryCache.clear_all (s : InMemoryCache α) : Bool × InMemoryCache α :=
  (true, { s with cache := [], expiry := [], hits := 0, misses := 0 })

/-! ## Pattern matching and `CacheService.clear_pattern`

`CacheService._pattern_match` delegates to `fnmatch.fnmatch`; on POSIX the
case normalization is the identity, and the only patterns this service
builds consist of literal characters, `?` and a `*` wildcard (no character
classes), which the matcher below embeds: a pattern matches the whole
key. -/

/-- Does a pattern match the empty string?  (Only when it is all `*`.) -/
def globAcceptsEmpty : List Char → Bool
  | [] => true
  | '*' :: ps => globAcceptsEmpty ps
  | _ :: _ => false

/-- Match one character `c` of the candidate against the head of the
pattern; `next` matches the rest of the candidate against a pattern. -/
def globStepFn (c : Char) (next : List Char → Bool) : List Char → Bool
  | [] => false
  | '*' :: ps => globStepFn c next ps || next ('*' :: ps)
  | '?' :: ps => next ps
  | p :: ps => p == c && next ps

/-- Glob matching, candidate-first (structural in the candidate). -/
def globMatchRev : List Char → List Char → Bool
  | [], ps => globAcceptsEmpty ps
  | c :: cs, ps => globStepFn c (globMatchRev cs) ps

/-- Glob matching of a whole candidate string `cs` against pattern `ps`:
`*` matches any sequence, `?` any one character, anything else itself. -/
def globMatch (ps cs : List Char) : Bool := globMatchRev cs ps

/-- Embeds `fnmatch.fnmatch(name, pattern)` as used by `_pattern_match`. -/
def fnmatchB (name pat : String) : Bool := globMatch pat.toList name.toList

/-- One iteration of the deletion loop of `CacheService.clear_pattern`
(lines 447–451): delete the key from the store and, when present, from the
expiry map. -/
def eraseBoth (s : InMemoryCache α) (key : String) : InMemoryCache α :=
  { s with cache := eraseKey s.cache key, expiry := eraseKey s.expiry key }

/-- Embeds `CacheService.clear_pattern` (lines 439–452), in-memory branch: collect
the stored keys matching the pattern, delete each from both maps, and
return how many were deleted. -/
def clearPattern (s : InMemoryCache α) (pat : String) : ℕ × InMemoryCache α :=
  let keys_to_delete := (keysOf s.cache).filter (fun k => fnmatchB k pat)
  (keys_to_delete.length, keys_to_delete.foldl eraseBoth s)

/-! ## The state invariant of the in-process backend (claim C10)

The number of stored entries never exceeds the capacity, every key with a
recorded expiry is present in the store, and — auxiliary facts making the
first two inductive — neither map holds a key twice. -/

def Inv (s : InMemoryCache α) : Prop :=
  s.cache.length ≤ s.max_size ∧
  (∀ k ∈ keysOf s.expiry, k ∈ keysOf s.cache) ∧
  (keysOf s.cache).Nodup ∧
  (keysOf s.expiry).Nodup

instance (s : InMemoryCache α) : Decidable (Inv s) := by
  unfold Inv; infer_instance

/-! ## Association-list lemmas -/

variable {κ : Type} [DecidableEq κ] {α : Type}

@[simp] theorem lookupKey_nil {k : κ} : lookupKey ([] : List (κ × α)) k = none := rfl

@[simp] theorem lookupKey_cons {k k' : κ} {v : α} {rest : List (κ × α)} :
    lookupKey ((k', v) :: rest) k = if k' = k then some v else lookupKey rest k := rfl

@[simp] theorem eraseKey_nil {k : κ} : eraseKey ([] : List (κ × α)) k = [] := rfl

@[simp] theorem eraseKey_cons {k k' : κ} {v : α} {rest : List (κ × α)} :
    eraseKey ((k', v) :: rest) k =
      if k' = k then rest else (k', v) :: eraseKey rest k := rfl

@[simp] theorem setKey_nil {k : κ} {v : α} : setKey ([] : List (κ × α)) k v = [(k, v)] := rfl

@[simp] theorem setKey_cons {k k' : κ} {v v' : α} {rest : List (κ × α)} :
    setKey ((k', v') :: rest) k v =
      if k' = k then (k, v) :: rest else (k', v') :: setKey rest k v := rfl

omit [DecidableEq κ] in
@[simp] theorem keysOf_nil : keysOf ([] : List (κ × α)) = [] := rfl

omit [DecidableEq κ] in
@[simp] theorem keysOf_cons {e : κ × α} {rest : List (κ × α)} :
    keysOf (e :: rest) = e.1 :: keysOf rest := rfl

omit [DecidableEq κ] in
@[simp] theorem keysOf_append {l m : List (κ × α)} :
    keysOf (l ++ m) = keysOf l ++ keysOf m := by
  simp [keysOf]

theorem hasKey_iff {l : List (κ × α)} {k : κ} : hasKey l k = true ↔ k ∈ keysOf l := by
  induction l with
  | nil => simp [hasKey]
  | cons e rest ih =>
    obtain ⟨k', v⟩ := e
    by_cases h : k' = k
    · subst h; simp [hasKey]
    · simp [hasKey, h, Ne.symm h] at ih ⊢
      exact ih

theorem lookupKey_eq_none_of_not_mem {l : List (κ × α)} {k : κ}
    (h : k ∉ keysOf l) : lookupKey l k = none := by
  have : ¬ hasKey l k = true := fun hk => h (hasKey_iff.mp hk)
  cases he : lookupKey l k with
  | none => rfl
  | some v => exact absurd (by simp [hasKey, he]) this

theorem eraseKey_of_not_mem {l : List (κ × α)} {k : κ}
    (h : k ∉ keysOf l) : eraseKey l k = l := by
  induction l with
  | nil => rfl
  | cons e rest ih =>
    obtain ⟨k', v⟩ := e
    simp at h
    have h1 : ¬ k' = k := fun hh => h.1 hh.symm
    simp [h1, ih h.2]

theorem mem_keysOf_eraseKey {l : List (κ × α)} {j k : κ}
    (h : j ∈ keysOf (eraseKey l k)) : j ∈ keysOf l := by
  induction l with
  | nil => simpa using h
  | cons e rest ih =>
    obtain ⟨k', v⟩ := e
    by_cases hk : k' = k
    · simp [hk] at h; simp [h]
    · simp [hk] at h
      rcases h with h | h
      · simp [h]
      · simp [ih h]

theorem mem_keysOf_eraseKey_of_ne {l : List (κ × α)} {j k : κ}
    (hj : j ∈ keysOf l) (hne : j ≠ k) : j ∈ keysOf (eraseKey l k) := by
  induction l with
  | nil => simpa using hj
  | cons e rest ih =>
    obtain ⟨k', v⟩ := e
    by_cases hk : k' = k
    · subst hk
      simp at hj
      rcases hj with hj | hj
      · exact absurd hj hne
      · simpa [if_pos rfl] using hj
    · simp [hk]
      simp at hj
      rcases hj with hj | hj
      · exact Or.inl hj
      · exact Or.inr (ih hj)

theorem not_mem_keysOf_eraseKey {l : List (κ × α)} {k : κ}
    (h : (keysOf l).Nodup) : k ∉ keysOf (eraseKey l k) := by
  induction l with
  | nil => simp
  | cons e rest ih =>
    obtain ⟨k', v⟩ := e
    simp at h
    by_cases hk : k' = k
    · subst hk
      simp
      exact h.1
    · simp [hk]
      exact ⟨fun hh => hk hh.symm, ih h.2⟩

theorem nodup_keysOf_eraseKey {l : List (κ × α)} {k : κ}
    (h : (keysOf l).Nodup) : (keysOf (eraseKey l k)).Nodup := by
  induction l with
  | nil => simp
  | cons e rest ih =>
    obtain ⟨k', v⟩ := e
    simp at h
    by_cases hk : k' = k
    · simpa [hk] using h.2
    · simp [hk]
      exact ⟨fun hmem => h.1 (mem_keysOf_eraseKey hmem), ih h.2⟩

theorem length_eraseKey_le {l : List (κ × α)} {k : κ} :
    (eraseKey l k).length ≤ l.length := by
  induction l with
  | nil => simp
  | cons e rest ih =>
    obtain ⟨k', v⟩ := e
    by_cases hk : k' = k <;> simp [hk] <;> omega

theorem length_eraseKey_of_mem {l : List (κ × α)} {k : κ}
    (h : k ∈ keysOf l) : (eraseKey l k).length + 1 = l.length := by
  induction l with
  | nil => simpa using h
  | cons e rest ih =>
    obtain ⟨k', v⟩ := e
    by_cases hk : k' = k
    · simp [hk]
    · simp [hk] at h ⊢
      rcases h with h | h
      · exact absurd h.symm hk
      · exact ih h

theorem lookupKey_append_self {l : List (κ × α)} {k : κ} {v : α}
    (h : k ∉ keysOf l) : lookupKey (l ++ [(k, v)]) k = some v := by
  induction l with
  | nil => simp
  | cons e rest ih =>
    obtain ⟨k', v'⟩ := e
    simp at h
    have h1 : ¬ k' = k := fun hh => h.1 hh.symm
    simp [h1, ih h.2]

theorem mem_keysOf_setKey {l : List (κ × α)} {j k : κ} {v : α}
    (h : j ∈ keysOf (setKey l k v)) : j ∈ keysOf l ∨ j = k := by
  induction l with
  | nil => simp at h; exact Or.inr h
  | cons e rest ih =>
    obtain ⟨k', v'⟩ := e
    by_cases hk : k' = k
    · simp [hk] at h
      rcases h with h | h
      · exact Or.inr h
      · exact Or.inl (by simp [h])
    · simp [hk] at h
      rcases h with h | h
      · exact Or.inl (by simp [h])
      · rcases ih h with h' | h'
        · exact Or.inl (by simp [h'])
        · exact Or.inr h'

theorem lookupKey_setKey_self {l : List (κ × α)} {k : κ} {v : α} :
    lookupKey (setKey l k v) k = some v := by
  induction l with
  | nil => simp
  | cons e rest ih =>
    obtain ⟨k', v'⟩ := e
    by_cases hk : k' = k <;> simp [hk, ih]

theorem nodup_keysOf_setKey {l : List (κ × α)} {k : κ} {v : α}
    (h : (keysOf l).Nodup) : (keysOf (setKey l k v)).Nodup := by
  induction l with
  | nil => simp
  | cons e rest ih =>
    obtain ⟨k', v'⟩ := e
    simp at h
    by_cases hk : k' = k
    · subst hk
      simp
      exact ⟨h.1, h.2⟩
    · simp [hk]
      refine ⟨fun hmem => ?_, ih h.2⟩
      rcases mem_keysOf_setKey hmem with h' | h'
      · exact h.1 h'
      · exact hk h'

theorem mem_keysOf_of_lookup {l : List (κ × α)} {k : κ} {v : α}
    (h : lookupKey l k = some v) : k ∈ keysOf l :=
  hasKey_iff.mp (by simp [hasKey, h])

theorem hasKey_false_iff {l : List (κ × α)} {k : κ} :
    hasKey l k = false ↔ k ∉ keysOf l := by
  rw [← hasKey_iff]
  cases hasKey l k <;> simp

/-- Moving an entry to the most-recently-used end keeps the key list
duplicate-free. -/
theorem nodup_keysOf_moveToEnd {l : List (String × α)} {k : String} {v : α}
    (h : (keysOf l).Nodup) : (keysOf (eraseKey l k ++ [(k, v)])).Nodup := by
  simp [List.nodup_append]
  exact ⟨nodup_keysOf_eraseKey h, not_mem_keysOf_eraseKey h⟩

theorem mem_keysOf_moveToEnd {l : List (String × α)} {j k : String} {v : α}
    (hj : j ∈ keysOf l) : j ∈ keysOf (eraseKey l k ++ [(k, v)]) := by
  by_cases hjk : j = k
  · simp [hjk]
  · simp [mem_keysOf_eraseKey_of_ne hj hjk]

/-! ## Invariant preservation (claim C10) -/

theorem inv_mkEmpty (n : ℕ) : Inv (InMemoryCache.mkEmpty n : InMemoryCache α) := by
  simp [Inv, InMemoryCache.mkEmpty]

theorem inv_get {s : InMemoryCache α} {now : ℚ} {k : String}
    (h : Inv s) : Inv (s.get now k).2 := by
  obtain ⟨hlen, hsub, hnc, hne⟩ := h
  unfold InMemoryCache.get
  cases hl : lookupKey s.cache k with
  | none => exact ⟨hlen, hsub, hnc, hne⟩
  | some v =>
    have hmem : k ∈ keysOf s.cache := mem_keysOf_of_lookup hl
    by_cases hfresh :
        (match lookupKey s.expiry k with
         | some t => decide (now < t)
         | none => true) = true
    · simp only [hfresh, if_pos]
      refine ⟨?_, ?_, nodup_keysOf_moveToEnd hnc, hne⟩
      · simp
        have := length_eraseKey_of_mem (l := s.cache) (k := k) hmem
        omega
      · intro j hj
        exact mem_keysOf_moveToEnd (hsub j hj)
    · simp only [eq_false_of_ne_true hfresh, if_false]
      refine ⟨?_, ?_, nodup_keysOf_eraseKey hnc, nodup_keysOf_eraseKey hne⟩
      · exact le_trans length_eraseKey_le hlen
      · intro j hj
        have hj1 : j ∈ keysOf s.expiry := mem_keysOf_eraseKey hj
        have hjk : j ≠ k := fun hh => not_mem_keysOf_eraseKey hne (hh ▸ hj)
        exact mem_keysOf_eraseKey_of_ne (hsub j hj1) hjk

theorem inv_insertEntry {s : InMemoryCache α} {now : ℚ} {k : String} {v : α}
    {ttl : ℤ} (h : Inv s) (hroom : s.cache.length < s.max_size ∨ k ∈ keysOf s.cache) :
    Inv (s.insertEntry now k v ttl) := by
  obtain ⟨hlen, hsub, hnc, hne⟩ := h
  unfold InMemoryCache.insertEntry
  refine ⟨?_, ?_, nodup_keysOf_moveToEnd hnc, ?_⟩
  · simp
    rcases hroom with hroom | hroom
    · have := length_eraseKey_le (l := s.cache) (k := k)
      omega
    · have := length_eraseKey_of_mem (l := s.cache) (k := k) hroom
      omega
  · intro j hj
    by_cases hjk : j = k
    · simp [hjk]
    · have hj1 : j ∈ keysOf s.expiry := by
        by_cases httl : 0 < ttl
        · simp only [if_pos httl] at hj
          rcases mem_keysOf_setKey hj with h' | h'
          · exact h'
          · exact absurd h' hjk
        · simpa [if_neg httl] using hj
      exact mem_keysOf_moveToEnd (hsub j hj1)
  · by_cases httl : 0 < ttl
    · simp only [if_pos httl]
      exact nodup_keysOf_setKey hne
    · simpa [if_neg httl] using hne

theorem inv_set {s : InMemoryCache α} {now : ℚ} {k : String} {v : α} {ttl : ℤ}
    (h : Inv s) : Inv (s.set now k v ttl).2 := by
  unfold InMemoryCache.set
  by_cases hc : s.max_size ≤ s.cache.length ∧ hasKey s.cache k = false
  · simp only [if_pos hc]
    cases hcache : s.cache with
    | nil => exact h
    | cons e tail =>
      obtain ⟨ok, ov⟩ := e
      obtain ⟨hlen, hsub, hnc, hne⟩ := h
      rw [hcache] at hlen hnc hsub
      simp at hnc
      have hkfresh : k ∉ keysOf s.cache := hasKey_false_iff.mp hc.2
      rw [hcache] at hkfresh
      simp at hkfresh
      refine inv_insertEntry ⟨?_, ?_, ?_, nodup_keysOf_eraseKey hne⟩ ?_
      · simp
        simp at hlen
        omega
      · intro j hj
        have hj1 : j ∈ keysOf s.expiry := mem_keysOf_eraseKey hj
        have hjo : j ≠ ok := fun hh => not_mem_keysOf_eraseKey hne (hh ▸ hj)
        have := hsub j hj1
        simp at this
        simp
        rcases this with h' | h'
        · exact absurd h' hjo
        · exact h'
      · simpa using hnc.2
      · left
        simp
        simp at hlen
        omega
  · simp only [if_neg hc]
    rcases Decidable.not_and_iff_or_not.mp hc with hc' | hc'
    · exact inv_insertEntry h (Or.inl (by omega))
    · refine inv_insertEntry h (Or.inr ?_)
      rw [← hasKey_iff]
      cases hh : hasKey s.cache k
      · exact absurd hh hc'
      · rfl

theorem inv_delete {s : InMemoryCache α} {k : String}
    (h : Inv s) : Inv (s.delete k).2 := by
  obtain ⟨hlen, hsub, hnc, hne⟩ := h
  unfold InMemoryCache.delete
  by_cases hk : hasKey s.cache k = true
  · simp only [hk, if_pos]
    refine ⟨le_trans length_eraseKey_le hlen, ?_,
      nodup_keysOf_eraseKey hnc, nodup_keysOf_eraseKey hne⟩
    intro j hj
    have hj1 : j ∈ keysOf s.expiry := mem_keysOf_eraseKey hj
    have hjk : j ≠ k := fun hh => not_mem_keysOf_eraseKey hne (hh ▸ hj)
    exact mem_keysOf_eraseKey_of_ne (hsub j hj1) hjk
  · simp only [eq_false_of_ne_true hk, if_false]
    exact ⟨hlen, hsub, hnc, hne⟩

theorem inv_clear_all {s : InMemoryCache α} (h : Inv s) : Inv (s.clear_all).2 := by
  simpa [Inv, InMemoryCache.clear_all] using Nat.zero_le _

theorem inv_eraseBoth {s : InMemoryCache α} {k : String}
    (h : Inv s) : Inv (eraseBoth s k) := by
  obtain ⟨hlen, hsub, hnc, hne⟩ := h
  refine ⟨le_trans length_eraseKey_le hlen, ?_,
    nodup_keysOf_eraseKey hnc, nodup_keysOf_eraseKey hne⟩
  intro j hj
  have hj1 : j ∈ keysOf s.expiry := mem_keysOf_eraseKey hj
  have hjk : j ≠ k := fun hh => not_mem_keysOf_eraseKey hne (hh ▸ hj)
  exact mem_keysOf_eraseKey_of_ne (hsub j hj1) hjk

theorem inv_foldl_eraseBoth {ks : List String} :
    ∀ {s : InMemoryCache α}, Inv s → Inv (ks.foldl eraseBoth s) := by
  induction ks with
  | nil => intro s h; exact h
  | cons k rest ih => intro s h; exact ih (inv_eraseBoth h)

theorem inv_clearPattern {s : InMemoryCache α} {pat : String}
    (h : Inv s) : Inv (clearPattern s pat).2 :=
  inv_foldl_eraseBoth h

/-! ## Behavior of `set` and `get` (claims C3 and C4) -/

theorem set_max_size {s : InMemoryCache α} {now : ℚ} {k : String} {v : α}
    {ttl : ℤ} : (s.set now k v ttl).2.max_size = s.max_size := by
  unfold InMemoryCache.set InMemoryCache.insertEntry
  by_cases hc : s.max_size ≤ s.cache.length ∧ hasKey s.cache k = false
  · simp only [if_pos hc]
    cases s.cache with
    | nil => rfl
    | cons e tail => rfl
  · simp only [if_neg hc]

/-- On a full store, `set` with a fresh key evicts exactly the
least-recently-used entry (the front of the order) and appends the new key
at the most-recently-used end. -/
theorem set_full_fresh_keys {s : InMemoryCache α} {now : ℚ} {k : String}
    {v : α} {ttl : ℤ} (hinv : Inv s) (hpos : 1 ≤ s.max_size)
    (hfull : s.cache.length = s.max_size) (hfresh : k ∉ keysOf s.cache) :
    keysOf (s.set now k v ttl).2.cache = (keysOf s.cache).tail ++ [k] := by
  have hc : s.max_size ≤ s.cache.length ∧ hasKey s.cache k = false :=
    ⟨le_of_eq hfull.symm, hasKey_false_iff.mpr hfresh⟩
  unfold InMemoryCache.set
  rw [if_pos hc]
  cases hcache : s.cache with
  | nil => rw [hcache] at hfull; simp at hfull; omega
  | cons e tail =>
    obtain ⟨ok, ov⟩ := e
    rw [hcache] at hfresh
    simp at hfresh
    have herase : eraseKey tail k = tail :=
      eraseKey_of_not_mem (by simpa using hfresh.2)
    simp [InMemoryCache.insertEntry, herase]

/-- After a successful `set` with a positive TTL, the key is stored with
the given value and its recorded expiry instant is `now + ttl`. -/
theorem set_lookup (s : InMemoryCache α) (now : ℚ) (k : String) (v : α)
    (ttl : ℤ) (hinv : Inv s) (hpos : 1 ≤ s.max_size) (httl : 0 < ttl) :
    lookupKey (s.set now k v ttl).2.cache k = some v ∧
      lookupKey (s.set now k v ttl).2.expiry k = some (now + ttl) := by
  obtain ⟨hlen, hsub, hnc, hne⟩ := hinv
  unfold InMemoryCache.set
  by_cases hc : s.max_size ≤ s.cache.length ∧ hasKey s.cache k = false
  · rw [if_pos hc]
    cases hcache : s.cache with
    | nil => rw [hcache] at hc; simp at hc; omega
    | cons e tail =>
      obtain ⟨ok, ov⟩ := e
      rw [hcache] at hnc
      simp at hnc
      constructor
      · simp [InMemoryCache.insertEntry]
        exact lookupKey_append_self (not_mem_keysOf_eraseKey hnc.2)
      · simp [InMemoryCache.insertEntry, if_pos httl]
        exact lookupKey_setKey_self
  · rw [if_neg hc]
    constructor
    · simp [InMemoryCache.insertEntry]
      exact lookupKey_append_self (not_mem_keysOf_eraseKey hnc)
    · simp [InMemoryCache.insertEntry, if_pos httl]
      exact lookupKey_setKey_self

/-- Hit case of `get`, a present key whose recorded expiry is still in the future:
hit, value returned, entry promoted to most recently used. -/
theorem get_hit {s : InMemoryCache α} {now t : ℚ} {k : String} {v : α}
    (hc : lookupKey s.cache k = some v) (he : lookupKey s.expiry k = some t)
    (hlt : now < t) :
    s.get now k =
      (some v,
        { s with cache := eraseKey s.cache k ++ [(k, v)], hits := s.hits + 1 }) := by
  unfold InMemoryCache.get
  rw [hc, he]
  simp [hlt]

/-- Expired case of `get`, a present key read at or after its recorded expiry instant: miss,
and the key is purged from both maps. -/
theorem get_expired {s : InMemoryCache α} {now t : ℚ} {k : String} {v : α}
    (hc : lookupKey s.cache k = some v) (he : lookupKey s.expiry k = some t)
    (hge : t ≤ now) :
    s.get now k =
      (none,
        { s with cache := eraseKey s.cache k, expiry := eraseKey s.expiry k,
                 misses := s.misses + 1 }) := by
  unfold InMemoryCache.get
  rw [hc, he]
  simp [not_lt.mpr hge]

/-- One `set` step of a key-filling sequence (same instant, same TTL, values
given by a function). -/
def setStep (now : ℚ) (v : String → α) (ttl : ℤ)
    (s : InMemoryCache α) (k : String) : InMemoryCache α :=
  (s.set now k (v k) ttl).2

theorem inv_foldl_setStep {now : ℚ} {v : String → α} {ttl : ℤ}
    {ks : List String} :
    ∀ {s : InMemoryCache α}, Inv s → Inv (ks.foldl (setStep now v ttl) s) := by
  induction ks with
  | nil => intro s h; exact h
  | cons k rest ih => intro s h; exact ih (inv_set h)

theorem foldl_setStep_max_size {now : ℚ} {v : String → α} {ttl : ℤ}
    {ks : List String} :
    ∀ {s : InMemoryCache α},
      (ks.foldl (setStep now v ttl) s).max_size = s.max_size := by
  induction ks with
  | nil => intro s; rfl
  | cons k rest ih =>
    intro s
    rw [List.foldl_cons, ih]
    exact set_max_size

/-- Filling a store that still has room with a sequence of distinct fresh
keys appends them in order, with no eviction. -/
theorem foldl_setStep_keys (now : ℚ) (v : String → α) (ttl : ℤ) :
    ∀ (ks : List String) (s : InMemoryCache α), ks.Nodup →
      (∀ k ∈ ks, k ∉ keysOf s.cache) →
      s.cache.length + ks.length ≤ s.max_size →
      keysOf (ks.foldl (setStep now v ttl) s).cache = keysOf s.cache ++ ks := by
  intro ks
  induction ks with
  | nil => intro s _ _ _; simp
  | cons k rest ih =>
    intro s hnd hfresh hlen
    rw [List.foldl_cons]
    have hkfresh : k ∉ keysOf s.cache := hfresh k (by simp)
    have hroom : ¬ (s.max_size ≤ s.cache.length ∧ hasKey s.cache k = false) := by
      intro hcontra
      have := hcontra.1
      simp at hlen
      omega
    have hstep : (setStep now v ttl s k).cache =
        s.cache ++ [(k, v k)] := by
      unfold setStep InMemoryCache.set
      rw [if_neg hroom]
      simp [InMemoryCache.insertEntry, eraseKey_of_not_mem hkfresh]
    have hstepmax : (setStep now v ttl s k).max_size = s.max_size := set_max_size
    simp at hnd
    have := ih (setStep now v ttl s k) hnd.2 ?_ ?_
    · rw [this, hstep]
      simp
    · intro j hj
      rw [hstep]
      simp
      exact ⟨fun hh => hfresh j (by simp [hj]) hh, fun hh => hnd.1 (hh ▸ hj)⟩
    · rw [hstepmax, hstep]
      simp at hlen ⊢
      omega

/-! ## Claim theorems for the in-process cache backend -/

/-- C10: For the in-process cache backend with capacity `max_size ≥ 1`,
every public operation (`get`, `set`, `delete`, `clear_all`,
`clear_pattern`) preserves the state invariant that the number of stored
entries is at most `max_size` and that every key with a recorded expiry
time is also present in the store (`Inv` additionally carries the
duplicate-freeness of both key lists, which makes the invariant inductive
and holds of the initial empty state). -/
theorem inMemoryCache_ops_preserve_inv {α : Type} (s : InMemoryCache α)
    (hmax : 1 ≤ s.max_size) (h : Inv s) (now : ℚ) (k : String) (v : α)
    (ttl : ℤ) (pat : String) :
    Inv (s.get now k).2 ∧ Inv (s.set now k v ttl).2 ∧ Inv (s.delete k).2 ∧
      Inv s.clear_all.2 ∧ Inv (clearPattern s pat).2 :=
  ⟨inv_get h, inv_set h, inv_delete h, inv_clear_all h, inv_clearPattern h⟩

/-- Witness for C10 at a concrete two-entry state of capacity 2. -/
theorem inMemoryCache_ops_preserve_inv_witness :
    1 ≤ (InMemoryCache.mk [("a", 1), ("b", 2)] [("a", 5)] 2 0 0).max_size ∧
    Inv (InMemoryCache.mk [("a", 1), ("b", 2)] [("a", 5)] 2 0 0) ∧
    (Inv ((InMemoryCache.mk [("a", 1), ("b", 2)] [("a", 5)] 2 0 0).get 3 "b").2 ∧
     Inv ((InMemoryCache.mk [("a", 1), ("b", 2)] [("a", 5)] 2 0 0).set 3 "b" 7 10).2 ∧
     Inv ((InMemoryCache.mk [("a", 1), ("b", 2)] [("a", 5)] 2 0 0).delete "b").2 ∧
     Inv (InMemoryCache.mk [("a", 1), ("b", 2)] [("a", 5)] 2 0 0).clear_all.2 ∧
     Inv (clearPattern (InMemoryCache.mk [("a", 1), ("b", 2)] [("a", 5)] 2 0 0) "a*").2) :=
  ⟨by decide, by decide,
    inMemoryCache_ops_preserve_inv _ (by decide) (by decide) 3 "b" 7 10 "a*"⟩

/-- C3: Starting from the empty in-process store of capacity `N ≥ 1`,
setting `N + 1` distinct keys (no intervening `get`s) leaves exactly the
least-recently-touched key (the first one set) absent and the other `N`
keys present, in order; and in general, `set` on a full store with a key
not yet present evicts exactly the current least-recently-used key (the
front of the recency order) before inserting the new key at the
most-recently-used end. -/
theorem lru_eviction {α : Type} (now : ℚ) (v : String → α) (ttl : ℤ)
    (N : ℕ) (hN : 1 ≤ N) (ks : List String) (hnd : ks.Nodup)
    (hlen : ks.length = N + 1) :
    keysOf ((ks.foldl (setStep now v ttl)
        (InMemoryCache.mkEmpty N : InMemoryCache α)).cache) = ks.tail ∧
    (∀ (s : InMemoryCache α) (k : String), Inv s → 1 ≤ s.max_size →
      s.cache.length = s.max_size → k ∉ keysOf s.cache →
      keysOf (s.set now k (v k) ttl).2.cache = (keysOf s.cache).tail ++ [k]) := by
  constructor
  · have hne : ks ≠ [] := by
      intro hh; rw [hh] at hlen; simp at hlen
    have hks : ks.dropLast ++ [ks.getLast hne] = ks :=
      List.dropLast_append_getLast hne
    have hfrontlen : ks.dropLast.length = N := by
      have := List.length_dropLast ks
      omega
    have hsplit := List.nodup_append.mp (hks ▸ hnd)
    have hfront : ks.dropLast.Nodup := hsplit.1
    have hlastfresh : ks.getLast hne ∉ ks.dropLast := by
      intro hmem
      exact hsplit.2.2 hmem (by simp)
    have hfill := foldl_setStep_keys now v ttl
      ks.dropLast (InMemoryCache.mkEmpty N) hfront
      (by intro j hj; simp [InMemoryCache.mkEmpty])
      (by simp [InMemoryCache.mkEmpty]; omega)
    have hinvf : Inv (ks.dropLast.foldl (setStep now v ttl)
        (InMemoryCache.mkEmpty N : InMemoryCache α)) :=
      inv_foldl_setStep (inv_mkEmpty N)
    have hmaxf : (ks.dropLast.foldl (setStep now v ttl)
        (InMemoryCache.mkEmpty N : InMemoryCache α)).max_size = N := by
      rw [foldl_setStep_max_size]; rfl
    have hlenf : (ks.dropLast.foldl (setStep now v ttl)
        (InMemoryCache.mkEmpty N : InMemoryCache α)).cache.length = N := by
      have h1 : (keysOf ((ks.dropLast.foldl (setStep now v ttl)
          (InMemoryCache.mkEmpty N : InMemoryCache α)).cache)).length =
          ks.dropLast.length := by rw [hfill]; simp [InMemoryCache.mkEmpty]
      simpa [keysOf, hfrontlen] using h1
    have hfreshf : ks.getLast hne ∉ keysOf ((ks.dropLast.foldl (setStep now v ttl)
        (InMemoryCache.mkEmpty N : InMemoryCache α)).cache) := by
      rw [hfill]
      simpa [InMemoryCache.mkEmpty] using hlastfresh
    calc keysOf ((ks.foldl (setStep now v ttl)
        (InMemoryCache.mkEmpty N : InMemoryCache α)).cache)
        = keysOf (((ks.dropLast ++ [ks.getLast hne]).foldl (setStep now v ttl)
            (InMemoryCache.mkEmpty N : InMemoryCache α)).cache) := by rw [hks]
      _ = (keysOf ((ks.dropLast.foldl (setStep now v ttl)
            (InMemoryCache.mkEmpty N : InMemoryCache α)).cache)).tail ++
            [ks.getLast hne] := by
            rw [List.foldl_append]
            simp only [List.foldl_cons, List.foldl_nil]
            exact set_full_fresh_keys hinvf (by omega) (by omega) hfreshf
      _ = ks.dropLast.tail ++ [ks.getLast hne] := by rw [hfill]; simp [InMemoryCache.mkEmpty]
      _ = ks.tail := by
            cases hfc : ks.dropLast with
            | nil => rw [hfc] at hfrontlen; simp at hfrontlen; omega
            | cons a t =>
              conv_rhs => rw [← hks]
              rw [hfc]
              simp
  · intro s k hinv hpos hfull hfresh
    exact set_full_fresh_keys hinv hpos hfull hfresh

/-- Witness for C3: capacity 2, keys `a, b, c`; afterwards exactly `a` is
absent. -/
theorem lru_eviction_witness :
    1 ≤ 2 ∧ (["a", "b", "c"] : List String).Nodup ∧
      (["a", "b", "c"] : List String).length = 2 + 1 ∧
      keysOf (((["a", "b", "c"] : List String).foldl
        (setStep 0 (fun _ => (0 : ℕ)) 60)
        (InMemoryCache.mkEmpty 2 : InMemoryCache ℕ)).cache) = ["b", "c"] :=
  ⟨by decide, by decide, by decide,
    (lru_eviction 0 (fun _ => (0 : ℕ)) 60 2 (by decide) ["a", "b", "c"]
      (by decide) (by decide)).1⟩

/-- C4: After `set k v ttl` with `ttl > 0` on a valid in-process state
(no intervening operation): a `get k` strictly before the expiry instant
`now + ttl` returns the value, promotes the key to most-recently-used
(last in the recency order) and counts a hit; a `get k` at or after the
expiry instant returns `none`, purges the key from both maps and counts a
miss. -/
theorem set_then_get_ttl {α : Type} (s : InMemoryCache α) (now now' : ℚ)
    (k : String) (v : α) (ttl : ℤ) (hinv : Inv s) (hmax : 1 ≤ s.max_size)
    (httl : 0 < ttl) :
    (now' < now + ttl →
      (((s.set now k v ttl).2.get now' k).1 = some v ∧
       ((s.set now k v ttl).2.get now' k).2.cache.getLast? = some (k, v) ∧
       ((s.set now k v ttl).2.get now' k).2.hits = (s.set now k v ttl).2.hits + 1)) ∧
    (now + ttl ≤ now' →
      (((s.set now k v ttl).2.get now' k).1 = none ∧
       hasKey ((s.set now k v ttl).2.get now' k).2.cache k = false ∧
       hasKey ((s.set now k v ttl).2.get now' k).2.expiry k = false ∧
       ((s.set now k v ttl).2.get now' k).2.misses = (s.set now k v ttl).2.misses + 1)) := by
  obtain ⟨hc, he⟩ := set_lookup s now k v ttl hinv hmax httl
  have hinv1 : Inv (s.set now k v ttl).2 := inv_set hinv
  constructor
  · intro hlt
    rw [get_hit hc he hlt]
    refine ⟨rfl, ?_, rfl⟩
    exact List.getLast?_concat _
  · intro hge
    rw [get_expired hc he hge]
    refine ⟨rfl, ?_, ?_, rfl⟩
    · exact hasKey_false_iff.mpr (not_mem_keysOf_eraseKey hinv1.2.2.1)
    · exact hasKey_false_iff.mpr (not_mem_keysOf_eraseKey hinv1.2.2.2)

/-- Witness for C4: capacity 10, `set "a" 42` with TTL 5 at instant 0; a
`get` at instant 3 hits with the value, a `get` at instant 7 misses. -/
theorem set_then_get_ttl_witness :
    ((3 : ℚ) < 0 + ((5 : ℤ) : ℚ) ∧
      (((InMemoryCache.mkEmpty 10 : InMemoryCache ℕ).set 0 "a" 42 5).2.get 3 "a").1 =
        some 42) ∧
    ((0 : ℚ) + ((5 : ℤ) : ℚ) ≤ 7 ∧
      (((InMemoryCache.mkEmpty 10 : InMemoryCache ℕ).set 0 "a" 42 5).2.get 7 "a").1 =
        none) :=
  ⟨⟨by norm_num,
    ((set_then_get_ttl (InMemoryCache.mkEmpty 10) 0 3 "a" 42 5 (by decide)
      (by decide) (by decide)).1 (by norm_num)).1⟩,
   ⟨by norm_num,
    ((set_then_get_ttl (InMemoryCache.mkEmpty 10) 0 7 "a" 42 5 (by decide)
      (by decide) (by decide)).2 (by norm_num)).1⟩⟩

/-! ## `CacheService` key derivation and culture invalidation (claim C8)

The `CacheService` wrapper adds service-level hit/miss counters on top of
the backend; those counters play no role in key derivation or pattern
matching and are not modelled here.  `hashlib.md5(...).hexdigest()` is
reached only when the joined parameter string exceeds 50 characters; it is
abstracted as an explicit function argument `md5Hex`. -/

/-- Code-point lexicographic `≤` on strings, the order Python's `sorted`
uses on `str`. -/
def lexLeChars : List Char → List Char → Bool
  | [], _ => true
  | _ :: _, [] => false
  | a :: as, b :: bs =>
    if a.toNat = b.toNat then lexLeChars as bs else decide (a.toNat < b.toNat)

def strLe (a b : String) : Bool := lexLeChars a.toList b.toList

/-- One step of `sorted(kwargs.items())`: insertion into an
already-sorted parameter list (parameter names are distinct in every call
this service makes, so sorting by name alone is the Python sort). -/
def insertParamSorted (x : String × Option String) :
    List (String × Option String) → List (String × Option String)
  | [] => [x]
  | y :: ys => if strLe x.1 y.1 then x :: y :: ys else y :: insertParamSorted x ys

/-- Embeds `sorted(kwargs.items())` by parameter name. -/
def sortParams (l : List (String × Option String)) :
    List (String × Option String) :=
  l.foldr insertParamSorted []

/-- Embeds `CacheService.generate_cache_key` (lines 336–356): sort the parameters
by name, join the non-`None` ones as `name:value` with `_`, condense via
an 8-character `md5` digest when longer than 50 characters, and prepend
the prefix. -/
def generate_cache_key (md5Hex : String → String) (pfx : String)
    (kwargs : List (String × Option String)) : String :=
  let params := sortParams kwargs
  let param_str := "_".intercalate
    ((params.filter (fun p => p.2.isSome)).map (fun p => p.1 ++ ":" ++ p.2.getD ""))
  if 50 < param_str.length then
    pfx ++ "_" ++ (md5Hex param_str).take 8
  else if param_str = "" then pfx
  else pfx ++ "_" ++ param_str

/-- Embeds `CacheService.cache_generated_names` (lines 509–534): store a list of
generated names under the key derived from
`(culture, gender, count=len(names))`.  The `ttl` is passed explicitly
(the service substitutes its configured TTL for `None`). -/
def cache_generated_names {β : Type} (md5Hex : String → String)
    (s : InMemoryCache (List β)) (now : ℚ) (culture : String)
    (gender : Option String) (names : List β) (ttl : ℤ) :
    Bool × InMemoryCache (List β) :=
  let key := generate_cache_key md5Hex "names"
    [("culture", some culture), ("gender", gender),
     ("count", some (toString names.length))]
  s.set now key names ttl

/-- Embeds `CacheService.get_cached_names` (lines 536–559). -/
def get_cached_names {β : Type} (md5Hex : String → String)
    (s : InMemoryCache (List β)) (now : ℚ) (culture : String)
    (gender : Option String) (count : ℕ) :
    Option (List β) × InMemoryCache (List β) :=
  let key := generate_cache_key md5Hex "names"
    [("culture", some culture), ("gender", gender),
     ("count", some (toString count))]
  s.get now key

/-- Embeds `CacheService.invalidate_culture_cache` (lines 561–571): clear all keys
matching `names_culture:{culture}_*`, returning the number removed. -/
def invalidate_culture_cache {β : Type} (s : InMemoryCache β)
    (culture : String) : ℕ × InMemoryCache β :=
  clearPattern s ("names_culture:" ++ culture ++ "_*")

/-- C8 (refuting evidence): `generate_cache_key` sorts parameters by
name, so every key written by `cache_generated_names` has the shape
`names_count:…_culture:…_gender:…`, while `invalidate_culture_cache`
clears the pattern `names_culture:{code}_*`.  The pattern never matches,
so after caching five names for culture `elvish` the invalidation deletes
zero entries and a subsequent cached-names lookup for `elvish` still
hits. -/
theorem invalidate_culture_cache_removes_nothing (md5Hex : String → String) :
    (invalidate_culture_cache
      (cache_generated_names md5Hex
        (InMemoryCache.mkEmpty 100 : InMemoryCache (List String)) 0 "elvish"
        (some "male") ["Lyra", "Ayla", "Nessa", "Iria", "Velo"] 3600).2
      "elvish").1 = 0 ∧
    (get_cached_names md5Hex
      (invalidate_culture_cache
        (cache_generated_names md5Hex
          (InMemoryCache.mkEmpty 100 : InMemoryCache (List String)) 0 "elvish"
          (some "male") ["Lyra", "Ayla", "Nessa", "Iria", "Velo"] 3600).2
        "elvish").2
      1 "elvish" (some "male") 5).1 =
      some ["Lyra", "Ayla", "Nessa", "Iria", "Velo"] := by
  constructor
  · rfl
  · have h2 : (invalidate_culture_cache
        (cache_generated_names md5Hex
          (InMemoryCache.mkEmpty 100 : InMemoryCache (List String)) 0 "elvish"
          (some "male") ["Lyra", "Ayla", "Nessa", "Iria", "Velo"] 3600).2
        "elvish").2 =
        (cache_generated_names md5Hex
          (InMemoryCache.mkEmpty 100 : InMemoryCache (List String)) 0 "elvish"
          (some "male") ["Lyra", "Ayla", "Nessa", "Iria", "Velo"] 3600).2 := rfl
    rw [h2]
    show ((cache_generated_names md5Hex
        (InMemoryCache.mkEmpty 100 : InMemoryCache (List String)) 0 "elvish"
        (some "male") ["Lyra", "Ayla", "Nessa", "Iria", "Velo"] 3600).2.get 1
        "names_count:5_culture:elvish_gender:male").1 =
      some ["Lyra", "Ayla", "Nessa", "Iria", "Velo"]
    have hc : lookupKey
        ((cache_generated_names md5Hex
          (InMemoryCache.mkEmpty 100 : InMemoryCache (List String)) 0 "elvish"
          (some "male") ["Lyra", "Ayla", "Nessa", "Iria", "Velo"] 3600).2).cache
        "names_count:5_culture:elvish_gender:male" =
        some ["Lyra", "Ayla", "Nessa", "Iria", "Velo"] := rfl
    have he : lookupKey
        ((cache_generated_names md5Hex
          (InMemoryCache.mkEmpty 100 : InMemoryCache (List String)) 0 "elvish"
          (some "male") ["Lyra", "Ayla", "Nessa", "Iria", "Velo"] 3600).2).expiry
        "names_count:5_culture:elvish_gender:male" =
        some ((0 : ℚ) + ((3600 : ℤ) : ℚ)) := rfl
    rw [get_hit hc he (by norm_num)]

/-! ## `PhoneticsScorer` (app/core/phonetics.py)

Penalties and thresholds are embedded as exact rationals.  The crucial
feature of the source is line 35: the loop over difficult clusters tests
`cluster in name.lower` — `name.lower` is the *bound method object* (the
call parentheses are missing), and Python's `in` applied to a
non-container raises `TypeError`, for every cluster and every name. -/

def forbidden_initial : List String := ["ng", "nk", "mb", "wr"]

def forbidden_final : List String := ["h", "w", "y"]

def difficult_clusters : List String := ["thr", "spr", "str", "scr"]

/-- The vowel set `set('aeiouy')` of the scorer (also the local vowel string of
`NameService._split_into_syllables`). -/
def vowelChars : List Char := ['a', 'e', 'i', 'o', 'u', 'y']

/-- Embeds `cluster in name.lower` (phonetics.py line 35): membership in the
uncalled method object — `TypeError` in Python, whatever the operands. -/
def clusterMembershipTest (cluster : String) (name : String) :
    Except PyError Bool :=
  Except.error PyError.typeError

/-- Embeds `PhoneticsScorer._max_consecutive_consonants` (lines 53–64). -/
def maxConsecutiveConsonantsAux : List Char → ℕ → ℕ → ℕ
  | [], max_count, _ => max_count
  | c :: rest, max_count, current_count =>
    if c ∈ vowelChars then maxConsecutiveConsonantsAux rest max_count 0
    else maxConsecutiveConsonantsAux rest (max max_count (current_count + 1))
      (current_count + 1)

def max_consecutive_consonants (name : String) : ℕ :=
  maxConsecutiveConsonantsAux name.toList 0 0

/-- Embeds `PhoneticsScorer.score` (lines 14–51).  Starts from 1.0, subtracts the
forbidden-initial and forbidden-final penalties, then evaluates the
difficult-cluster loop — whose membership test raises `TypeError` (line
35) — and only past that point would compute the vowel-ratio penalty
(`ZeroDivisionError` on the empty name), the consecutive-consonant
penalty, the elvish adjustment, and the final clamp to [0, 1]. -/
def PhoneticsScorer.score (name : String) (culture : Option String) :
    Except PyError ℚ := do
  let name_lower := name.toLower
  let s0 : ℚ := 1
  let s1 := forbidden_initial.foldl
    (fun sc p => if name_lower.startsWith p then sc - 1/10 else sc) s0
  let s2 := forbidden_final.foldl
    (fun sc p => if name_lower.endsWith p then sc - 1/10 else sc) s1
  let s3 ← difficult_clusters.foldlM
    (fun sc cluster => do
      let b ← clusterMembershipTest cluster name
      pure (if b then sc - 2/10 else sc)) s2
  let vowel_count : ℕ := (name_lower.toList.filter (fun c => c ∈ vowelChars)).length
  if name_lower.length = 0 then
    throw PyError.zeroDivisionError
  else
    let vowel_ratio : ℚ := (vowel_count : ℚ) / (name_lower.length : ℚ)
    let s4 := if vowel_ratio < 3/10 ∨ 6/10 < vowel_ratio then s3 - 15/100 else s3
    let mc := max_consecutive_consonants name_lower
    let s5 := if 3 < mc then s4 - ((mc - 3 : ℕ) : ℚ) * (1/10) else s4
    let s6 :=
      if culture = some "elvish" ∧ name_lower.toList.any (fun c => c ∈ ['k', 'g', 'x'])
      then s5 - 1/10 else s5
    pure (max 0 (min 1 s6))

/-- The scorer raises `TypeError` on every input: the first iteration of
the difficult-cluster loop evaluates `cluster in name.lower` (line 35). -/
theorem score_always_error (name : String) (culture : Option String) :
    PhoneticsScorer.score name culture = Except.error PyError.typeError := rfl

/-- C2 (refuting evidence): `PhoneticsScorer.score` never returns a
float in [0, 1]: it raises `TypeError` for every `(name, culture)` input,
at the difficult-cluster membership test `cluster in name.lower`
(phonetics.py line 35, the method is never called).  This contradicts the
claim that `score` terminates normally; the repository's own unit tests
(`test_scores_pronounceable_names_high`) would fail with this exception. -/
theorem score_raises_typeError (name : String) (culture : Option String) :
    PhoneticsScorer.score name culture = Except.error PyError.typeError :=
  score_always_error name culture

/-- C9 (refuting evidence): No 0.2-per-occurrence cluster penalty is
ever applied: on `"astra"` (one occurrence of `str`) and on `"strastra"`
(two occurrences) the scorer raises `TypeError` at the cluster test
instead of subtracting 0.2 or 0.4. -/
theorem score_cluster_penalty_never_applied :
    PhoneticsScorer.score "astra" none = Except.error PyError.typeError ∧
    PhoneticsScorer.score "strastra" none = Except.error PyError.typeError :=
  ⟨rfl, rfl⟩

/-! ## Enumerations (app/models/schemas.py) -/

inductive Culture where
  | elvish
  | dwarven
  | human
  deriving DecidableEq, Repr

def Culture.value : Culture → String
  | .elvish => "elvish"
  | .dwarven => "dwarven"
  | .human => "human"

inductive Gender where
  | masculine
  | feminine
  | neutral
  deriving DecidableEq, Repr

def Gender.value : Gender → String
  | .masculine => "masculine"
  | .feminine => "feminine"
  | .neutral => "neutral"

inductive Length where
  | short
  | medium
  | long
  deriving DecidableEq, Repr

/-! ## `SyllableGenerator` (app/core/syllables.py) and randomness

`random.choice(seq)` is driven by an explicit stream of draws: a draw `r`
selects index `r % len(seq)` (CPython draws an index uniformly below
`len(seq)`; reducing an arbitrary draw modulo the length keeps every index
selectable and maps a uniform draw to a uniform index).  `random.choice`
on an empty sequence raises `IndexError`. -/

def chooseIdx (l : List α) (r : ℕ) : Option α := l.get? (r % l.length)

def randomChoice (l : List α) (rs : List ℕ) : Except PyError (α × List ℕ) :=
  match chooseIdx l (rs.headD 0) with
  | some a => Except.ok (a, rs.tail)
  | none => Except.error PyError.indexError

/-- The per-position pattern lists of a culture template, plain pattern
strings as in the repository's templates and test fixtures. -/
structure PatternSet where
  initial : List String
  medial : List String
  final : List String
  deriving Repr

/-- A culture template `dict` as consumed by the generator: optional
phoneme pools (`template.get(..., default)`) and the pattern lists. -/
structure CultureTemplate where
  consonants : Option String := none
  vowels : Option String := none
  nasals : Option String := none
  liquids : Option String := none
  patterns : PatternSet
  gender_patterns : List (Gender × PatternSet) := []
  deriving Repr

/-- The per-symbol loop of `SyllableGenerator.generate` (syllables.py
lines 25–37): `C`, `V`, `N`, `L` sample from the corresponding pool, any
other character is copied literally. -/
def syllableChars (cons vows nas liqs : List Char) :
    List Char → List Char → List ℕ → Except PyError (List Char × List ℕ)
  | [], acc, rs => Except.ok (acc, rs)
  | c :: rest, acc, rs =>
    match (if c = 'C' then some cons
           else if c = 'V' then some vows
           else if c = 'N' then some nas
           else if c = 'L' then some liqs
           else none) with
    | some pool =>
      match randomChoice pool rs with
      | .error e => .error e
      | .ok (ch, rs') => syllableChars cons vows nas liqs rest (acc ++ [ch]) rs'
    | none => syllableChars cons vows nas liqs rest (acc ++ [c]) rs

/-- Embeds `SyllableGenerator.generate` (syllables.py lines 18–38), with the
default pools of `__init__`. -/
def SyllableGenerator.generate (pattern : String) (t : CultureTemplate)
    (rs : List ℕ) : Except PyError (String × List ℕ) :=
  match syllableChars (t.consonants.getD "bcdfghjklmnprstvwyz").toList
      (t.vowels.getD "aeiouy").toList (t.nasals.getD "mn").toList
      (t.liquids.getD "lr").toList pattern.toList [] rs with
  | .error e => .error e
  | .ok (cs, rs') => .ok (String.mk cs, rs')

/-! ## `NameGenerator` (app/core/generator.py)

`generator.py` calls three helper methods that are defined nowhere in the
repository — `_determine_syllable_count` (line 45), `_apply_transforms`
(line 29) and `_fallback_name` (line 36); run as-is, each call would raise
`AttributeError`.  They are modelled from the spec below, so that the
remaining, present code decides the claims. -/

/-- Modelled from the spec: `NameGenerator._determine_syllable_count` is
called at generator.py line 45 but not defined in the repository.  Spec
§4.2 step 1: "Determine target syllable count from `length` (short→2,
medium→3, long→4, unset→random in [2,4])". -/
def determineSyllableCount : Option Length → List ℕ → ℕ × List ℕ
  | some .short, rs => (2, rs)
  | some .medium, rs => (3, rs)
  | some .long, rs => (4, rs)
  | none, rs => (2 + rs.headD 0 % 3, rs.tail)

/-- Modelled from the spec: `NameGenerator._apply_transforms` is called at
generator.py line 29 but not defined in the repository.  Spec §4.2 step 4:
"apply any culture-defined literal transforms … if unimplemented for a
culture, this step is a no-op"; no repository template defines transforms,
so the step is the identity. -/
def applyTransforms (name : String) (t : CultureTemplate) : String := name

/-- Modelled from the spec: `NameGenerator._fallback_name` is called at
generator.py line 36 but not defined in the repository.  Spec §4.2 step 7
and §7(2): on budget exhaustion, "a fixed, culture-tagged placeholder
name with a score of 0.0". -/
def fallbackName (culture : Culture) (gender : Option Gender) :
    String × List String × ℚ :=
  ("Unnamed-" ++ culture.value, ["Unnamed-" ++ culture.value], 0)

/-- Python `str.capitalize()`: first character upper-cased, the rest
lower-cased. -/
def pyCapitalize (s : String) : String := (s.take 1).toUpper ++ (s.drop 1).toLower

/-- Position-dependent pattern list of `_generate_syllables` (generator.py
lines 52–58): `initial` at index 0, `final` at the last index, `medial`
in between. -/
def positionPatterns (patterns : PatternSet) (i num : ℕ) : List String :=
  if i = 0 then patterns.initial
  else if i = num - 1 then patterns.final
  else patterns.medial

/-- The per-position loop of `_generate_syllables` (generator.py lines
51–63), counting down the remaining positions (`i = num - remaining`). -/
def syllablesLoop (t : CultureTemplate) (patterns : PatternSet) (num : ℕ) :
    ℕ → List String → List ℕ → Except PyError (List String × List ℕ)
  | 0, acc, rs => Except.ok (acc, rs)
  | Nat.succ rem, acc, rs =>
    match randomChoice (positionPatterns patterns (num - (rem + 1)) num) rs with
    | .error e => .error e
    | .ok (pattern, rs') =>
      match SyllableGenerator.generate pattern t rs' with
      | .error e => .error e
      | .ok (syllable, rs'') =>
        syllablesLoop t patterns num rem (acc ++ [syllable]) rs''

/-- Embeds `NameGenerator._generate_syllables` (generator.py lines 38–63): pick
the syllable count, switch to the gender-specific pattern set when the
template defines one for the requested gender, then draw one pattern per
position with `random.choice` and assemble it. -/
def NameGenerator.generateSyllables (t : CultureTemplate)
    (gender : Option Gender) (length : Option Length) (rs : List ℕ) :
    Except PyError (List String × List ℕ) :=
  let num_rs := determineSyllableCount length rs
  let patterns :=
    match gender with
    | some g =>
      match lookupKey t.gender_patterns g with
      | some ps => ps
      | none => t.patterns
    | none => t.patterns
  syllablesLoop t patterns num_rs.1 num_rs.1 [] num_rs.2

/-- The attempt loop of `NameGenerator.generate` (generator.py lines
24–36): generate syllables, join them, apply the transforms, score, and
accept at score ≥ 0.6; on exhaustion return the fallback. -/
def NameGenerator.generateLoop (t : CultureTemplate) (culture : Culture)
    (gender : Option Gender) (length : Option Length) :
    ℕ → List ℕ → Except PyError ((String × List String × ℚ) × List ℕ)
  | 0, rs => Except.ok (fallbackName culture gender, rs)
  | Nat.succ n, rs =>
    match NameGenerator.generateSyllables t gender length rs with
    | .error e => .error e
    | .ok (syllables, rs') =>
      let name := applyTransforms (String.join syllables) t
      match PhoneticsScorer.score name (some culture.value) with
      | .error e => .error e
      | .ok sc =>
        if 6/10 ≤ sc then Except.ok ((pyCapitalize name, syllables, sc), rs')
        else NameGenerator.generateLoop t culture gender length n rs'

/-- Embeds `NameGenerator.generate` (generator.py lines 14–36):
`self.templates[culture]` raises `KeyError` on an unknown culture, then
the attempt loop runs with the default budget of 100. -/
def NameGenerator.generate (templates : List (Culture × CultureTemplate))
    (culture : Culture) (gender : Option Gender) (length : Option Length)
    (attempts : ℕ) (rs : List ℕ) :
    Except PyError ((String × List String × ℚ) × List ℕ) :=
  match lookupKey templates culture with
  | some t => NameGenerator.generateLoop t culture gender length attempts rs
  | none => Except.error PyError.keyError

/-- Each attempt of the loop ends in an exception: either syllable
generation fails (empty pool or pattern list: `IndexError`) or the scorer
raises its `TypeError`. -/
theorem generateLoop_succ_error (t : CultureTemplate) (culture : Culture)
    (gender : Option Gender) (length : Option Length) (n : ℕ) (rs : List ℕ) :
    ∃ e, NameGenerator.generateLoop t culture gender length (n + 1) rs =
      Except.error e := by
  cases hsyl : NameGenerator.generateSyllables t gender length rs with
  | error e =>
    exact ⟨e, by simp [NameGenerator.generateLoop, hsyl]⟩
  | ok p =>
    refine ⟨PyError.typeError, ?_⟩
    simp [NameGenerator.generateLoop, hsyl, score_always_error]

/-- C1 (refuting evidence): For every template table containing the
requested culture, every gender/length choice, every positive attempt
budget and every random stream, `NameGenerator.generate` propagates an
exception instead of returning a `(name, syllables, score)` triple: the
in-repository scorer raises `TypeError` on the first scored candidate
(and a defective template can raise `IndexError` even earlier). -/
theorem generate_raises (templates : List (Culture × CultureTemplate))
    (culture : Culture) (gender : Option Gender) (length : Option Length)
    (attempts : ℕ) (rs : List ℕ)
    (hc : (lookupKey templates culture).isSome) (ha : 1 ≤ attempts) :
    ∃ e, NameGenerator.generate templates culture gender length attempts rs =
      Except.error e := by
  obtain ⟨t, ht⟩ := Option.isSome_iff_exists.mp hc
  obtain ⟨n, rfl⟩ : ∃ n, attempts = n + 1 := ⟨attempts - 1, by omega⟩
  unfold NameGenerator.generate
  rw [ht]
  exact generateLoop_succ_error t culture gender length n rs

/-- The `elvish` culture template of `tests/unit/test_generator.py`. -/
def elvishTestTemplate : CultureTemplate :=
  { consonants := some "lmnrsvy", vowels := some "aeiou",
    patterns := { initial := ["CV", "V"], medial := ["CV", "V"],
                  final := ["V", "VC"] } }

/-- The template table of the repository's generator unit tests. -/
def testTemplates : List (Culture × CultureTemplate) :=
  [(Culture.elvish, elvishTestTemplate)]

/-- Witness for C1 on the repository's own test fixture. -/
theorem generate_raises_witness :
    (lookupKey testTemplates Culture.elvish).isSome = true ∧ 1 ≤ 100 ∧
    ∃ e, NameGenerator.generate testTemplates Culture.elvish none none 100 [] =
      Except.error e :=
  ⟨rfl, by omega,
    generate_raises testTemplates Culture.elvish none none 100 [] rfl (by omega)⟩

/-- C6 (refuting evidence): On the repository's own test template with
the default budget of 100, `generate` raises the scorer's `TypeError` on
its very first attempt, so the exhaustion fallback is unreachable; only a
zero-attempt budget (never used by callers, whose default is 100) returns
the spec-modelled deterministic fallback. -/
theorem generate_exhaustion_never_reaches_fallback :
    NameGenerator.generate testTemplates Culture.elvish none none 100 [] =
      Except.error PyError.typeError ∧
    NameGenerator.generate testTemplates Culture.elvish none none 0 [] =
      Except.ok (fallbackName Culture.elvish none, []) :=
  ⟨rfl, rfl⟩

/-! ## Pattern-selection distribution (claim C7)

`_generate_syllables` draws each position's pattern with
`random.choice(patterns[...])` — plain uniform selection from a list of
pattern strings.  The repository's templates and test fixtures attach no
weights to these lists (a weighted helper exists only in
`scripts/culture_loader.py` and is never called by the engine). -/

/-- Over range-many draws, `chooseIdx` agrees with plain indexing. -/
theorem count_get?_range (p : String) (l : List String) :
    ((List.range l.length).filter (fun r => l.get? r = some p)).length =
      l.count p := by
  induction l with
  | nil => simp
  | cons a t ih =>
    have hr : List.range (a :: t).length =
        0 :: (List.range t.length).map Nat.succ := by
      simpa using List.range_succ_eq_map t.length
    have hfun : ((fun r => decide ((a :: t).get? r = some p)) ∘ Nat.succ) =
        (fun r => decide (t.get? r = some p)) := by
      funext r
      rfl
    rw [hr, List.filter_cons, List.filter_map, hfun]
    by_cases hap : a = p
    · subst hap
      simp [List.count_cons]
      simpa using ih
    · simp [hap, List.count_cons, Ne.symm hap]
      simpa using ih

/-- In one uniform period of draws each fixed pattern is selected as often
as it occurs in the list. -/
theorem chooseIdx_count (l : List String) (p : String) :
    ((List.range l.length).filter (fun r => chooseIdx l r = some p)).length =
      l.count p := by
  have hcongr : (List.range l.length).filter (fun r => chooseIdx l r = some p) =
      (List.range l.length).filter (fun r => l.get? r = some p) := by
    apply List.filter_congr
    intro r hr
    have hmod : r % l.length = r := Nat.mod_eq_of_lt (List.mem_range.mp hr)
    simp [chooseIdx, hmod]
  rw [hcongr, count_get?_range]

/-- The probability that one uniform draw selects pattern `p` from the
active list `l` (the fraction of draw residues selecting `p`). -/
def uniformSelectProb (l : List String) (p : String) : ℚ :=
  (((List.range l.length).filter (fun r => chooseIdx l r = some p)).length : ℚ) /
    (l.length : ℚ)

/-- Modelled from the spec (§3, §4.2 step 3): selection probability
proportional to configured pattern weights.  The engine's pattern lists
carry no weights, so the weighted model takes its own weighted list. -/
def weightedSelectProb (wl : List (String × ℚ)) (p : String) : ℚ :=
  ((wl.filter (fun e => e.1 = p)).map Prod.snd).sum / (wl.map Prod.snd).sum

/-- C7 (amended): The engine draws each position's syllable pattern
uniformly at random from the active pattern list: `random.choice` is
embedded by `chooseIdx`, and over one uniform period of draws each
pattern is selected with frequency equal to its multiplicity in the list —
probability `count / length` — with no influence from any configured
weight (the pattern lists consumed by `_generate_syllables` carry none). -/
theorem pattern_selection_uniform (l : List String) (p : String) :
    ((List.range l.length).filter (fun r => chooseIdx l r = some p)).length =
      l.count p ∧
    uniformSelectProb l p = (l.count p : ℚ) / (l.length : ℚ) := by
  refine ⟨chooseIdx_count l p, ?_⟩
  unfold uniformSelectProb
  rw [chooseIdx_count]

/-- C7 (counterexample): For the active list `["CV", "V"]` under
configured weights 1 and 3, weight-proportional selection would choose
`"V"` with probability 3/4; the code's uniform draw chooses it with
probability 1/2. -/
theorem pattern_selection_not_weighted :
    uniformSelectProb ["CV", "V"] "V" = 1/2 ∧
    weightedSelectProb [("CV", 1), ("V", 3)] "V" = 3/4 ∧
    uniformSelectProb ["CV", "V"] "V" ≠
      weightedSelectProb [("CV", 1), ("V", 3)] "V" := by
  have ha : uniformSelectProb ["CV", "V"] "V" = 1/2 := by
    have h1 : (List.range (["CV", "V"] : List String).length).filter
        (fun r => chooseIdx ["CV", "V"] r = some "V") = [1] := rfl
    unfold uniformSelectProb
    rw [h1]
    norm_num
  have hb : weightedSelectProb [("CV", 1), ("V", 3)] "V" = 3/4 := by
    have h2 : (([("CV", (1 : ℚ)), ("V", 3)].filter
        (fun e => e.1 = "V")).map Prod.snd) = [3] := rfl
    have h3 : [("CV", (1 : ℚ)), ("V", 3)].map Prod.snd = [1, 3] := rfl
    unfold weightedSelectProb
    rw [h2, h3]
    norm_num
  exact ⟨ha, hb, by rw [ha, hb]; norm_num⟩

/-! ## `NameService` (app/services/name_service.py)

The orchestrator.  Its response is modelled as the list of accepted
`GeneratedName`s (the wall-clock `generation_time_ms` field and the echo
of the request parameters carry no information about the names).  Four
helpers it calls are defined nowhere in the repository and are modelled
from the spec below (`_generate_cache_key`, `_is_duplicate`,
`_format_response` — trimming to `count` — and `_store_name`, a
fire-and-forget persistence side effect with no bearing on the response,
omitted).  `roune` (line 54) is *not* such a helper: it is a free name
that exists nowhere (an evident typo for the builtin `round`), so Python
raises `NameError` when it is evaluated. -/

/-- Embeds `GeneratedName` of app/models/schemas.py. -/
structure GName where
  name : String
  pronunciation : Option String
  syllables : List String
  score : ℚ
  culture : String
  gender : Option String
  deriving Repr, DecidableEq

/-- Embeds `NameGenerationRequest` of app/models/schemas.py, with its defaults
(`count` is validated to 1–20, `min_score` to [0, 1]). -/
structure NameGenerationRequest where
  culture : Culture
  gender : Option Gender := none
  count : ℕ := 1
  length : Option Length := none
  include_pronunciation : Bool := true
  min_score : ℚ := 6/10

/-- Embeds the call `roune(score, 3)` (name_service.py line 54): no binding named `roune`
exists anywhere in the repository, so evaluating the call raises
`NameError`. -/
def roune (x : ℚ) (ndigits : ℕ) : Except PyError ℚ :=
  Except.error PyError.nameError

/-- The character loop of `NameService._split_into_syllables`
(name_service.py lines 83–90): iterate over the lower-cased name, but test
and copy the *raw* name's characters at `i+1` and `i+2` (the source mixes
`char` from `name.lower()` with `name[i+1]`/`name[i+2]`). -/
def splitLoop (raw : List Char) :
    List Char → ℕ → List Char → List String → List String × List Char
  | [], _, current, syllables => (syllables, current)
  | ch :: rest, i, current, syllables =>
    let current' := current ++ [ch]
    if ch ∈ vowelChars ∧ i + 1 < raw.length ∧ raw.getD (i + 1) ' ' ∉ vowelChars ∧
        i + 2 < raw.length ∧ raw.getD (i + 2) ' ' ∈ vowelChars then
      splitLoop raw rest (i + 1) []
        (syllables ++ [String.mk (current' ++ [raw.getD (i + 1) ' '])])
    else
      splitLoop raw rest (i + 1) current' syllables

/-- Embeds `NameService._split_into_syllables` (lines 76–98): after the loop, a
non-empty remainder is appended to the last syllable, or becomes the only
syllable. -/
def NameService.split_into_syllables (name : String) : List String :=
  let res := splitLoop name.toList name.toLower.toList 0 [] []
  if res.2 = [] then res.1
  else
    match res.1 with
    | [] => [String.mk res.2]
    | _ :: _ => res.1.dropLast ++ [res.1.getLastD "" ++ String.mk res.2]

/-- Embeds `NameService._generate_pronunciation` (lines 71–74):
`'-'.join(syllables).lower()`. -/
def NameService.generate_pronunciation (name : String) : String :=
  ("-".intercalate (NameService.split_into_syllables name)).toLower

/-- Modelled from the spec: `NameService._is_duplicate` is called at
name_service.py line 47 but not defined in the repository.  Spec §4.5
step 3: keep a candidate only if "its name is not a case-insensitive
duplicate of any already-accepted candidate in this call". -/
def isDuplicate (name : String) (generated : List GName) : Bool :=
  generated.any (fun g => g.name.toLower = name.toLower)

/-- Modelled from the spec: `NameService._generate_cache_key` is called at
name_service.py line 26 but not defined in the repository.  Spec §4.5
step 1: "Compute cache key from `(culture, gender, count)`-derived
parameters"; modelled with the cache service's own key derivation. -/
def nsCacheKey (md5Hex : String → String) (req : NameGenerationRequest) :
    String :=
  generate_cache_key md5Hex "names"
    [("culture", some req.culture.value), ("gender", req.gender.map Gender.value),
     ("count", some (toString req.count))]

/-- The bounded accept loop of `NameService.generate_names` (lines 39–61),
with `fuel = max_attempts - attempts` counting down: call the engine,
accept a candidate iff its score reaches `min_score` and its name is not a
case-insensitive duplicate, rounding the accepted score with `roune`. -/
def genLoop (templates : List (Culture × CultureTemplate))
    (req : NameGenerationRequest) :
    ℕ → List GName → List ℕ → Except PyError (List GName × List ℕ)
  | 0, generated, rs => Except.ok (generated, rs)
  | Nat.succ fuel, generated, rs =>
    if generated.length < req.count then
      match NameGenerator.generate templates req.culture req.gender req.length
          100 rs with
      | .error e => .error e
      | .ok ((name, syllables, sc), rs') =>
        if req.min_score ≤ sc ∧ isDuplicate name generated = false then
          match roune sc 3 with
          | .error e => .error e
          | .ok rounded =>
            genLoop templates req fuel
              (generated ++
                [{ name := name,
                   pronunciation :=
                     if req.include_pronunciation then
                       some (NameService.generate_pronunciation name)
                     else none,
                   syllables := syllables, score := rounded,
                   culture := req.culture.value,
                   gender := req.gender.map Gender.value }]) rs'
        else genLoop templates req fuel generated rs'
    else Except.ok (generated, rs)

/-- The cache-miss path of `generate_names`: run the loop with the
`count × 10` attempt budget, then store the accepted list with TTL 3600
(line 63). -/
def nsGenerate (templates : List (Culture × CultureTemplate))
    (req : NameGenerationRequest) (key : String)
    (s : InMemoryCache (List GName)) (now : ℚ) (rs : List ℕ) :
    Except PyError (List GName × InMemoryCache (List GName) × List ℕ) :=
  match genLoop templates req (req.count * 10) [] rs with
  | .error e => .error e
  | .ok (generated, rs') =>
    .ok (generated, (s.set now key generated 3600).2, rs')

/-- Embeds `NameService.generate_names` (lines 19–69): consult the cache first;
`if cached and len(cached) >= request.count` (a non-`None`, *non-empty*
cached list of at least `count` entries) short-circuits with the first
`count` cached entries (spec-modelled `_format_response`); otherwise run
the bounded generation loop and write the result back. -/
def NameService.generate_names (templates : List (Culture × CultureTemplate))
    (md5Hex : String → String) (req : NameGenerationRequest)
    (s : InMemoryCache (List GName)) (now : ℚ) (rs : List ℕ) :
    Except PyError (List GName × InMemoryCache (List GName) × List ℕ) :=
  let key := nsCacheKey md5Hex req
  let res := s.get now key
  match res.1 with
  | some cached =>
    if cached ≠ [] ∧ req.count ≤ cached.length then
      .ok (cached.take req.count, res.2, rs)
    else nsGenerate templates req key res.2 now rs
  | none => nsGenerate templates req key res.2 now rs

/-- C5 (refuting evidence): On a cold cache, `generate_names` cannot
return any list at all for a positive `count`: the engine's first
candidate raises the scorer's `TypeError` (and, independently, the first
*accepted* candidate would raise `NameError` at `roune(score, 3)`, as the
second conjunct records), so the dedup guarantee about returned lists is
never exercised. -/
theorem generate_names_raises (md5Hex : String → String) :
    NameService.generate_names testTemplates md5Hex
      { culture := Culture.elvish, count := 5 }
      (InMemoryCache.mkEmpty 100) 0 [] = Except.error PyError.typeError ∧
    roune (7/10) 3 = Except.error PyError.nameError :=
  ⟨rfl, rfl⟩

end Magus
